import Mathlib

/-!
Verification of the AppUpdater subsystem (version parsing, download staging,
progress publication, task serialization) against its specification.

The pure logic (`parse_version_string`, progress percentage publication, URL
helpers, destination resolution, temp-file staging names, task serialization)
is embedded directly from the source.  Collaborators that live outside this
repository slice (the `Semver` class, the `Http` transport, and
`boost::filesystem::path` concatenation) are modelled from the spec; each such
definition carries a doc comment saying so.
-/

namespace AppUpdaterProof

/-- Strict lexicographic comparison on character lists (by code point).
Modelled from the spec: part of the `SemanticVersion` total ordering used to
compare prerelease tags (the `Semver` class is not part of the sources). -/
def strLtL : List Char → List Char → Bool
  | [], [] => false
  | [], _ :: _ => true
  | _ :: _, [] => false
  | a :: as, b :: bs =>
    if a.toNat < b.toNat then true
    else if b.toNat < a.toNat then false
    else strLtL as bs

/-- Modelled from the spec: `SemanticVersion` is "a parsed (major, minor,
patch, optional prerelease tag) triple with total ordering" (the `Semver`
class is not part of the sources). -/
structure Semver where
  major : Nat
  minor : Nat
  patch : Nat
  pre : Option String
deriving DecidableEq

/-- Modelled from the spec: ordering of the optional prerelease tag.  A
version with a prerelease tag precedes the same version without one; two
tags compare lexicographically. -/
def preLt : Option String → Option String → Bool
  | some _, none => true
  | some x, some y => strLtL x.data y.data
  | _, _ => false

/-- Modelled from the spec: the total order on semantic versions, comparing
(major, minor, patch) numerically and then the prerelease tag. -/
def Semver.lt (a b : Semver) : Bool :=
  if a.major < b.major then true
  else if b.major < a.major then false
  else if a.minor < b.minor then true
  else if b.minor < a.minor then false
  else if a.patch < b.patch then true
  else if b.patch < a.patch then false
  else preLt a.pre b.pre

/-- Value of a nonempty all-digit character list; `none` otherwise. -/
def digitsVal (cs : List Char) : Option Nat :=
  if cs = [] then none
  else if cs.all Char.isDigit then
    some (cs.foldl (fun n c => 10 * n + (c.toNat - 48)) 0)
  else none

/-- Split a character list at the first dash, yielding the core and the
optional remainder after the dash. -/
def splitDash : List Char → List Char × Option (List Char)
  | [] => ([], none)
  | c :: cs =>
    if c = '-' then ([], some cs)
    else
      let r := splitDash cs
      (c :: r.1, r.2)

/-- Split a character list on every dot. -/
def splitDot : List Char → List (List Char)
  | [] => [[]]
  | c :: cs =>
    let r := splitDot cs
    if c = '.' then [] :: r
    else
      match r with
      | [] => [[c]]
      | l :: ls => (c :: l) :: ls

/-- Modelled from the spec: `Semver::parse` — "invalid text yields a parse
failure, not a value" (the `Semver` class is not part of the sources).  A
valid version is `major.minor.patch` with an optional `-tag` suffix. -/
def Semver.parse (s : String) : Option Semver :=
  let core := splitDash s.data
  match splitDot core.1 with
  | [ma, mi, pa] =>
    match digitsVal ma, digitsVal mi, digitsVal pa with
    | some a, some b, some c => some ⟨a, b, c, core.2.map String.mk⟩
    | _, _, _ => none
  | _ => none

/-- Is the character a newline character, as in `find_first_of("\n\r")`. -/
def isNl (c : Char) : Bool := c = '\n' || c = '\r'

/-- Split a character list on every `'\n'`/`'\r'`, mirroring the line scan of
`parse_version_string` (first line before the first newline character, then
one segment between each further pair of newline characters). -/
def splitNl : List Char → List (List Char)
  | [] => [[]]
  | c :: cs =>
    let r := splitNl cs
    if isNl c then [] :: r
    else
      match r with
      | [] => [[c]]
      | l :: ls => (c :: l) :: ls

/-- The segments of a version body, as `parse_version_string` scans them. -/
def bodyLines (body : String) : List String :=
  (splitNl body.data).map String.mk

/-- The first line of the body: `body.substr(0, first_nl_pos)`, or the whole
body when it has no newline. -/
def releaseLine (body : String) : String :=
  (bodyLines body).headD ""

/-- Notifications queued to the owning application by the version parser. -/
inductive Event where
  | versionOnline (v : String)
  | experimentalVersionOnline (v : String)
deriving DecidableEq

/-- The prerelease-collection loop of `parse_version_string`: each line whose
first six characters are `alpha=` (resp. first five are `beta=`) contributes
its suffix, which must parse as a semantic version or the whole scan aborts
(`none`). -/
def collectPrereleases : List String → Option (List String)
  | [] => some []
  | line :: rest =>
    if line.data.take 6 = "alpha=".data then
      let v : String := ⟨line.data.drop 6⟩
      match Semver.parse v with
      | none => none
      | some _ => (collectPrereleases rest).map (fun l => v :: l)
    else if line.data.take 5 = "beta=".data then
      let v : String := ⟨line.data.drop 5⟩
      match Semver.parse v with
      | none => none
      | some _ => (collectPrereleases rest).map (fun l => v :: l)
    else collectPrereleases rest

/-- The `recent_version` selection loop of `parse_version_string`: fold over
the collected prerelease strings, replacing the accumulator whenever the
candidate parses, exceeds the release version, and exceeds the current
accumulator (kept as the parsed version paired with its source string). -/
def selGo (release : Semver) : Option (Semver × String) → List String → Option (Semver × String)
  | acc, [] => acc
  | acc, s :: rest =>
    selGo release
      (match Semver.parse s with
       | none => acc
       | some v =>
         if release.lt v && (match acc with | none => true | some rv => rv.1.lt v)
         then some (v, s) else acc)
      rest

/-- `AppUpdater::priv::parse_version_string`, returning the list of queued
notifications in order.  The release notification is queued as soon as the
first line parses; the prerelease scan follows and an invalid `alpha=`/`beta=`
suffix aborts it; finally the most recent qualifying prerelease, if any, is
queued as the experimental notification. -/
def parse_version_string (body : String) : List Event :=
  match Semver.parse (releaseLine body) with
  | none => []
  | some release =>
    match collectPrereleases (bodyLines body).tail with
    | none => [Event.versionOnline (releaseLine body)]
    | some pres =>
      match selGo release none pres with
      | none => [Event.versionOnline (releaseLine body)]
      | some vs => [Event.versionOnline (releaseLine body), Event.experimentalVersionOnline vs.2]

/-- The suffix after the last `'/'` of a character list, or `none` when there
is no `'/'` — the list-level core of `get_filename_from_url`'s
`url.rfind('/')` / `url.substr(slash + 1)`. -/
def afterLastSlash : List Char → Option (List Char)
  | [] => none
  | c :: cs =>
    match afterLastSlash cs with
    | some r => some r
    | none => if c = '/' then some cs else none

/-- The suffix from the last `'.'` (dot included) of a character list, or
`none` when there is no `'.'` — the list-level core of
`get_file_extension_from_url`'s `url.rfind('.')` / `url.substr(dot)`. -/
def fromLastDot : List Char → Option (List Char)
  | [] => none
  | c :: cs =>
    match fromLastDot cs with
    | some r => some r
    | none => if c = '.' then some (c :: cs) else none

/-- `AppUpdater::get_filename_from_url`: the substring after the last `'/'`,
or the whole URL when it contains none. -/
def get_filename_from_url (url : String) : String :=
  match afterLastSlash url.data with
  | some r => ⟨r⟩
  | none => url

/-- `AppUpdater::get_file_extension_from_url`: the substring from the last
`'.'` (dot included), or the whole URL when it contains none. -/
def get_file_extension_from_url (url : String) : String :=
  match fromLastDot url.data with
  | some r => ⟨r⟩
  | none => url

/-- Modelled from the spec: `boost::filesystem::path::operator/` (the boost
library is not part of the sources) — joins two paths with a directory
separator; an empty left component yields the right component. -/
def pathJoin (a b : String) : String :=
  if a = "" then b else a ++ "/" ++ b

/-- The fields of `AppUpdater::priv` that the destination policy reads. -/
structure DownloadState where
  m_user_dest_path : String
  m_default_dest_folder : String
deriving DecidableEq

/-- The destination resolution at the top of `download_file`: the user path
when non-empty, else the default folder joined with the URL's trailing
filename segment. -/
def resolve_dest (st : DownloadState) (url : String) : String :=
  if st.m_user_dest_path ≠ "" then st.m_user_dest_path
  else pathJoin st.m_default_dest_folder (get_filename_from_url url)

/-- Outcome of one HTTP transfer, as exposed by the transport's completion
callbacks. -/
inductive TransportOutcome where
  | error (status : Nat) (msg : String)
  | completed (body : String)
deriving DecidableEq

/-- One run of the transport: the progress samples `(dlnow, dltotal)` it
reports and its final outcome. -/
structure TransportRun where
  progressSamples : List (Nat × Nat)
  outcome : TransportOutcome
deriving DecidableEq

/-- Modelled from the spec: behavior of the `Http` transport (the `Http`
class is not part of the sources) as driven by `http_get_file` — when the
shared cancel flag is observed at a progress callback the transfer aborts
and no body is delivered; an error delivers no body; a completed transfer
delivers the body. -/
def http_transfer (m_cancel : Bool) (tr : TransportRun) : Option String :=
  if m_cancel = true ∧ tr.progressSamples ≠ [] then none
  else
    match tr.outcome with
    | .error _ _ => none
    | .completed body => some body

/-- Modelled from the spec: progress samples actually handed to the progress
callback — cancellation is observed at the first callback, so a cancelled
transfer delivers at most its first sample. -/
def delivered_samples (m_cancel : Bool) (tr : TransportRun) : List (Nat × Nat) :=
  if m_cancel then tr.progressSamples.take 1 else tr.progressSamples

/-- One step of `download_file`'s progress lambda: compute the integer
percentage from a `(dlnow, dltotal)` sample (0 when the total is 0), publish
it iff `last_gui_progress < gui_progress && (last_gui_progress != 0 ||
gui_progress != 100)`, updating `last_gui_progress` when publishing. -/
def progress_step (last_gui_progress : Nat) (p : Nat × Nat) : Nat × Option Nat :=
  let gui_progress := if 0 < p.2 then 100 * p.1 / p.2 else 0
  if last_gui_progress < gui_progress ∧ (last_gui_progress ≠ 0 ∨ gui_progress ≠ 100) then
    (gui_progress, some gui_progress)
  else (last_gui_progress, none)

/-- Run the progress lambda over a sample sequence, returning the final
`last_gui_progress` and the list of published percentages in order. -/
def progress_run : Nat → List (Nat × Nat) → Nat × List Nat
  | last, [] => (last, [])
  | last, p :: ps =>
    let s := progress_step last p
    let r := progress_run s.1 ps
    (r.1, match s.2 with | some g => g :: r.2 | none => r.2)

/-- File-system operations performed by the staging (completion) callback. -/
inductive FsOp where
  | write (path : String) (contents : String)
  | rename (src : String) (dst : String)
deriving DecidableEq

/-- The path a file-system operation creates. -/
def FsOp.target : FsOp → String
  | .write p _ => p
  | .rename _ dst => dst

/-- The `on_complete` lambda of `download_file`: write the body to
`dest_path + "." + pid + ".download"`, then rename it onto `dest_path`;
`stagingOk = false` abstracts an exception thrown during the write or rename
(placed here at the rename), upon which the callback returns `false` and the
temporary file is left behind. -/
def complete_download (dest_path : String) (pid : Nat) (body : String) (stagingOk : Bool) :
    Bool × List FsOp :=
  let tmp_path := dest_path ++ "." ++ toString pid ++ ".download"
  if stagingOk then
    (true, [FsOp.write tmp_path body, FsOp.rename tmp_path dest_path])
  else (false, [FsOp.write tmp_path body])

/-- Environment of one `download_file` call: the shared cancel flag, the
transport's behavior, whether staging I/O succeeds, and the process id. -/
structure DlEnv where
  m_cancel : Bool
  tr : TransportRun
  stagingOk : Bool
  pid : Nat
deriving DecidableEq

/-- Observable result of `download_file`: the returned path (empty on
failure), whether the transport was invoked and with which size limit, the
published progress percentages, and the staging file-system operations. -/
structure DlResult where
  path : String
  transportInvoked : Bool
  sizeLimit : Option Nat
  published : List Nat
  fsOps : List FsOp
deriving DecidableEq

/-- `AppUpdater::priv::download_file`: resolve the destination (fail fast on
an empty path without invoking the transport), perform the transport GET with
a 70 MiB size limit, publish progress, stage the body on completion, and
return the destination path on success and the empty path on any failure. -/
def download_file (st : DownloadState) (url : String) (env : DlEnv) : DlResult :=
  let dest_path := resolve_dest st url
  if dest_path = "" then ⟨"", false, none, [], []⟩
  else
    let published := (progress_run 0 (delivered_samples env.m_cancel env.tr)).2
    match http_transfer env.m_cancel env.tr with
    | none => ⟨"", true, some (70 * 1024 * 1024), published, []⟩
    | some body =>
      let c := complete_download dest_path env.pid body env.stagingOk
      ⟨if c.1 then dest_path else "", true, some (70 * 1024 * 1024), published, c.2⟩

/-- Observable result of `version_check`: the size limit passed to the
transport and the notifications queued by the parser. -/
structure VcResult where
  sizeLimit : Nat
  events : List Event
deriving DecidableEq

/-- `AppUpdater::priv::version_check`: transport GET with a 256-byte size
limit; on completion, trim the body and hand it to `parse_version_string`. -/
def version_check (m_cancel : Bool) (tr : TransportRun) : VcResult :=
  ⟨256,
   match http_transfer m_cancel tr with
   | none => []
   | some body => parse_version_string body.trim⟩

/-- A call to the Update Coordinator: `sync_download` or `sync_version`
(their join/cancel/spawn skeletons are identical). -/
inductive SyncCall where
  | download
  | version
deriving DecidableEq

/-- Observable coordinator actions: setting/clearing the shared cancel flag,
joining a background task to completion, and spawning a background task. -/
inductive CoordEvent where
  | setCancel
  | joinTask (id : Nat)
  | clearCancel
  | spawnTask (id : Nat)
deriving DecidableEq

/-- The event trace of a sequence of `sync_download`/`sync_version` calls,
mirroring the source: when a previous task exists (`m_thread.joinable()`),
first set `m_cancel` and join it; then clear `m_cancel` and spawn the new
task.  `st` is the identity of the currently spawned (unjoined) task and `m`
the next fresh task id. -/
def sync_run : Option Nat → Nat → List SyncCall → List CoordEvent
  | _, _, [] => []
  | some p, m, _ :: rest =>
    CoordEvent.setCancel :: CoordEvent.joinTask p :: CoordEvent.clearCancel ::
      CoordEvent.spawnTask m :: sync_run (some m) (m + 1) rest
  | none, m, _ :: rest =>
    CoordEvent.clearCancel :: CoordEvent.spawnTask m :: sync_run (some m) (m + 1) rest

/-- Number of active (spawned, not yet joined) tasks after one event. -/
def stepActive (a : Nat) : CoordEvent → Nat
  | .spawnTask _ => a + 1
  | .joinTask _ => a - 1
  | _ => a

/-- The running count of active tasks after each event of a trace. -/
def activeSeq (a : Nat) : List CoordEvent → List Nat
  | [] => []
  | e :: es => stepActive a e :: activeSeq (stepActive a e) es

theorem strLtL_irrefl : ∀ cs, strLtL cs cs = false := by
  intro cs
  induction cs with
  | nil => rfl
  | cons c cs ih =>
    simp only [strLtL]
    rw [if_neg (Nat.lt_irrefl _), if_neg (Nat.lt_irrefl _)]
    exact ih

theorem strLtL_trans : ∀ as bs cs, strLtL as bs = true → strLtL bs cs = true →
    strLtL as cs = true := by
  intro as
  induction as with
  | nil =>
    intro bs cs h1 h2
    cases bs with
    | nil => simp [strLtL] at h1
    | cons b bs =>
      cases cs with
      | nil => simp [strLtL] at h2
      | cons c cs => rfl
  | cons a as ih =>
    intro bs cs h1 h2
    cases bs with
    | nil => simp [strLtL] at h1
    | cons b bs =>
      cases cs with
      | nil => simp [strLtL] at h2
      | cons c cs =>
        simp only [strLtL] at h1 h2 ⊢
        split_ifs at h1 h2 ⊢ <;> first
          | rfl
          | omega
          | exact ih bs cs h1 h2

theorem preLt_irrefl : ∀ x, preLt x x = false := by
  intro x
  cases x with
  | none => rfl
  | some s => simpa [preLt] using strLtL_irrefl s.data

theorem preLt_trans : ∀ x y z, preLt x y = true → preLt y z = true → preLt x z = true := by
  intro x y z h1 h2
  cases x <;> cases y <;> cases z <;> simp [preLt] at h1 h2 ⊢
  exact strLtL_trans _ _ _ h1 h2

theorem Semver.lt_eq (a b : Semver) : a.lt b = true ↔
    (a.major < b.major ∨ (a.major = b.major ∧
      (a.minor < b.minor ∨ (a.minor = b.minor ∧
        (a.patch < b.patch ∨ (a.patch = b.patch ∧ preLt a.pre b.pre = true)))))) := by
  simp only [Semver.lt]
  split_ifs with h1 h2 h3 h4 h5 h6
  · exact iff_of_true rfl (Or.inl h1)
  · refine iff_of_false not_false ?_
    rintro (h | ⟨e1, h | ⟨e2, h | ⟨e3, hpre⟩⟩⟩) <;> omega
  · exact iff_of_true rfl (Or.inr ⟨by omega, Or.inl h3⟩)
  · refine iff_of_false not_false ?_
    rintro (h | ⟨e1, h | ⟨e2, h | ⟨e3, hpre⟩⟩⟩) <;> omega
  · exact iff_of_true rfl (Or.inr ⟨by omega, Or.inr ⟨by omega, Or.inl h5⟩⟩)
  · refine iff_of_false not_false ?_
    rintro (h | ⟨e1, h | ⟨e2, h | ⟨e3, hpre⟩⟩⟩) <;> omega
  · constructor
    · intro hpre
      exact Or.inr ⟨by omega, Or.inr ⟨by omega, Or.inr ⟨by omega, hpre⟩⟩⟩
    · rintro (h | ⟨e1, h | ⟨e2, h | ⟨e3, hpre⟩⟩⟩) <;> first | omega | exact hpre

theorem Semver.lt_irrefl (a : Semver) : a.lt a = false := by
  cases h : a.lt a with
  | false => rfl
  | true =>
    rcases (Semver.lt_eq a a).mp h with h1 | ⟨e1, h1 | ⟨e2, h1 | ⟨e3, h1⟩⟩⟩
    · omega
    · omega
    · omega
    · rw [preLt_irrefl] at h1
      exact absurd h1 Bool.false_ne_true

theorem Semver.lt_trans (a b c : Semver) (h1 : a.lt b = true) (h2 : b.lt c = true) :
    a.lt c = true := by
  rw [Semver.lt_eq] at h1 h2 ⊢
  rcases h1 with h1 | ⟨e1, h1 | ⟨e2, h1 | ⟨e3, h1⟩⟩⟩ <;>
    rcases h2 with h2 | ⟨f1, h2 | ⟨f2, h2 | ⟨f3, h2⟩⟩⟩ <;>
      first
        | exact Or.inl (by omega)
        | exact Or.inr ⟨by omega, Or.inl (by omega)⟩
        | exact Or.inr ⟨by omega, Or.inr ⟨by omega, Or.inl (by omega)⟩⟩
        | exact Or.inr ⟨by omega, Or.inr ⟨by omega, Or.inr ⟨by omega, preLt_trans _ _ _ h1 h2⟩⟩⟩

theorem selGo_some_of_some (rel : Semver) :
    ∀ l p, selGo rel (some p) l ≠ none := by
  intro l
  induction l with
  | nil => intro p h; exact Option.noConfusion h
  | cons x l ih =>
    intro p h
    cases hp : Semver.parse x with
    | none =>
      simp only [selGo, hp] at h
      exact ih p h
    | some v =>
      simp only [selGo, hp] at h
      by_cases hc : (rel.lt v && p.1.lt v) = true
      · rw [if_pos hc] at h
        exact ih _ h
      · rw [if_neg hc] at h
        exact ih p h

theorem selGo_none_iff (rel : Semver) :
    ∀ l, selGo rel none l = none ↔
      ∀ s ∈ l, ∀ v, Semver.parse s = some v → rel.lt v = false := by
  intro l
  induction l with
  | nil => simp [selGo]
  | cons x l ih =>
    cases hp : Semver.parse x with
    | none =>
      simp only [selGo, hp]
      rw [ih]
      constructor
      · intro h s hs v hv
        rcases List.mem_cons.mp hs with rfl | hs
        · exact absurd hv (by rw [hp]; exact Option.noConfusion)
        · exact h s hs v hv
      · intro h s hs v hv
        exact h s (List.mem_cons_of_mem _ hs) v hv
    | some v =>
      cases hlt : rel.lt v with
      | true =>
        simp only [selGo, hp, Bool.and_true]
        rw [if_pos hlt]
        constructor
        · intro h
          exact absurd h (selGo_some_of_some rel l (v, x))
        · intro h
          have hx := h x (List.mem_cons_self x l) v hp
          rw [hlt] at hx
          exact absurd hx (by decide)
      | false =>
        simp only [selGo, hp, Bool.and_true]
        rw [if_neg (by rw [hlt]; exact Bool.false_ne_true)]
        rw [ih]
        constructor
        · intro h s hs v' hv'
          rcases List.mem_cons.mp hs with rfl | hs
          · rw [hp] at hv'
            injection hv' with hv''
            rw [← hv'']
            exact hlt
          · exact h s hs v' hv'
        · intro h s hs v' hv'
          exact h s (List.mem_cons_of_mem _ hs) v' hv'

theorem selGo_max (rel : Semver) :
    ∀ l acc v s, selGo rel acc l = some (v, s) →
      (acc = some (v, s) ∨ (s ∈ l ∧ Semver.parse s = some v ∧ rel.lt v = true))
      ∧ (∀ p, acc = some p → (p = (v, s) ∨ p.1.lt v = true))
      ∧ (∀ s' ∈ l, ∀ v', Semver.parse s' = some v' → rel.lt v' = true →
          v.lt v' = false) := by
  intro l
  induction l with
  | nil =>
    intro acc v s h
    simp only [selGo] at h
    refine ⟨Or.inl h, ?_, ?_⟩
    · intro p hpacc
      rw [hpacc] at h
      injection h with h
      exact Or.inl h
    · intro s' hs'
      exact absurd hs' (List.not_mem_nil s')
  | cons x l ih =>
    intro acc v s h
    cases hp : Semver.parse x with
    | none =>
      simp only [selGo, hp] at h
      obtain ⟨ih1, ih2, ih3⟩ := ih acc v s h
      refine ⟨?_, ih2, ?_⟩
      · rcases ih1 with h1 | ⟨hm, hps, hq⟩
        · exact Or.inl h1
        · exact Or.inr ⟨List.mem_cons_of_mem _ hm, hps, hq⟩
      · intro s' hs' v' hv' hq'
        rcases List.mem_cons.mp hs' with rfl | hs'
        · exact absurd hv' (by rw [hp]; exact Option.noConfusion)
        · exact ih3 s' hs' v' hv' hq'
    | some vx =>
      cases acc with
      | none =>
        simp only [selGo, hp, Bool.and_true] at h
        cases hrel : rel.lt vx with
        | false =>
          rw [if_neg (by rw [hrel]; exact Bool.false_ne_true)] at h
          obtain ⟨ih1, ih2, ih3⟩ := ih none v s h
          refine ⟨?_, ?_, ?_⟩
          · rcases ih1 with h1 | ⟨hm, hps, hq⟩
            · exact Option.noConfusion h1
            · exact Or.inr ⟨List.mem_cons_of_mem _ hm, hps, hq⟩
          · intro p hpacc
            exact Option.noConfusion hpacc
          · intro s' hs' v' hv' hq'
            rcases List.mem_cons.mp hs' with rfl | hs'
            · rw [hp] at hv'
              injection hv' with hv''
              subst hv''
              rw [hrel] at hq'
              exact absurd hq' (by decide)
            · exact ih3 s' hs' v' hv' hq'
        | true =>
          rw [if_pos hrel] at h
          obtain ⟨ih1, ih2, ih3⟩ := ih (some (vx, x)) v s h
          have hvx : (vx, x) = (v, s) ∨ vx.lt v = true := ih2 (vx, x) rfl
          refine ⟨?_, ?_, ?_⟩
          · rcases ih1 with h1 | ⟨hm, hps, hq⟩
            · injection h1 with h1
              have hv1 : vx = v := congrArg Prod.fst h1
              have hs1 : x = s := congrArg Prod.snd h1
              subst hv1
              subst hs1
              exact Or.inr ⟨List.mem_cons_self _ _, hp, hrel⟩
            · exact Or.inr ⟨List.mem_cons_of_mem _ hm, hps, hq⟩
          · intro p hpacc
            exact Option.noConfusion hpacc
          · intro s' hs' v' hv' hq'
            rcases List.mem_cons.mp hs' with rfl | hs'
            · rw [hp] at hv'
              injection hv' with hv''
              subst hv''
              rcases hvx with h1 | h1
              · have hv1 : vx = v := congrArg Prod.fst h1
                subst hv1
                exact Semver.lt_irrefl _
              · cases hvv : v.lt vx with
                | false => rfl
                | true =>
                  have hcon := Semver.lt_trans vx v vx h1 hvv
                  rw [Semver.lt_irrefl] at hcon
                  exact absurd hcon (by decide)
            · exact ih3 s' hs' v' hv' hq'
      | some q =>
        simp only [selGo, hp] at h
        by_cases hc : (rel.lt vx && q.1.lt vx) = true
        · rw [if_pos hc] at h
          have hand : rel.lt vx = true ∧ q.1.lt vx = true := by
            rw [Bool.and_eq_true] at hc
            exact hc
          have hrel : rel.lt vx = true := hand.1
          have hqx : q.1.lt vx = true := hand.2
          obtain ⟨ih1, ih2, ih3⟩ := ih (some (vx, x)) v s h
          have hvx : (vx, x) = (v, s) ∨ vx.lt v = true := ih2 (vx, x) rfl
          refine ⟨?_, ?_, ?_⟩
          · rcases ih1 with h1 | ⟨hm, hps, hq⟩
            · injection h1 with h1
              have hv1 : vx = v := congrArg Prod.fst h1
              have hs1 : x = s := congrArg Prod.snd h1
              subst hv1
              subst hs1
              exact Or.inr ⟨List.mem_cons_self _ _, hp, hrel⟩
            · exact Or.inr ⟨List.mem_cons_of_mem _ hm, hps, hq⟩
          · intro p hpacc
            injection hpacc with hpacc
            subst hpacc
            rcases hvx with h1 | h1
            · have hv1 : vx = v := congrArg Prod.fst h1
              subst hv1
              exact Or.inr hqx
            · exact Or.inr (Semver.lt_trans q.1 vx v hqx h1)
          · intro s' hs' v' hv' hq'
            rcases List.mem_cons.mp hs' with rfl | hs'
            · rw [hp] at hv'
              injection hv' with hv''
              subst hv''
              rcases hvx with h1 | h1
              · have hv1 : vx = v := congrArg Prod.fst h1
                subst hv1
                exact Semver.lt_irrefl _
              · cases hvv : v.lt vx with
                | false => rfl
                | true =>
                  have hcon := Semver.lt_trans vx v vx h1 hvv
                  rw [Semver.lt_irrefl] at hcon
                  exact absurd hcon (by decide)
            · exact ih3 s' hs' v' hv' hq'
        · rw [if_neg hc] at h
          obtain ⟨ih1, ih2, ih3⟩ := ih (some q) v s h
          refine ⟨?_, ih2, ?_⟩
          · rcases ih1 with h1 | ⟨hm, hps, hq⟩
            · exact Or.inl h1
            · exact Or.inr ⟨List.mem_cons_of_mem _ hm, hps, hq⟩
          · intro s' hs' v' hv' hq'
            rcases List.mem_cons.mp hs' with rfl | hs'
            · rw [hp] at hv'
              injection hv' with hv''
              subst hv''
              cases hrel : rel.lt vx with
              | false =>
                rw [hrel] at hq'
                exact absurd hq' (by decide)
              | true =>
                have hqx : q.1.lt vx = false := by
                  cases hm : q.1.lt vx with
                  | false => rfl
                  | true => exact absurd (by rw [hrel, hm]; rfl) hc
                rcases ih2 q rfl with h1 | h1
                · have hv1 : q.1 = v := congrArg Prod.fst h1
                  rw [← hv1]
                  exact hqx
                · cases hvv : v.lt vx with
                  | false => rfl
                  | true =>
                    have hcon := Semver.lt_trans q.1 v vx h1 hvv
                    rw [hqx] at hcon
                    exact absurd hcon (by decide)
            · exact ih3 s' hs' v' hv' hq'

/-- C3: for every version body whose first line does not parse as a valid
semantic version, `parse_version_string` fails and emits zero notifications. -/
theorem parse_version_invalid_release_empty (body : String)
    (h : Semver.parse (releaseLine body) = none) :
    parse_version_string body = [] := by
  simp only [parse_version_string, h]

/-- Witness for C3 at the body `"notaversion\nalpha=1.0.0"`. -/
theorem parse_version_invalid_release_empty_w :
    parse_version_string "notaversion\nalpha=1.0.0" = [] :=
  parse_version_invalid_release_empty "notaversion\nalpha=1.0.0" (by decide)

/-- C1 (counterexample): at body `"1.2.3\nalpha=notaversion"` the first line
parses as a valid semantic version and the `alpha=` suffix does not, yet the
report is not empty: the release-version notification is emitted (it is
queued before the prerelease lines are scanned), refuting "zero
notifications". -/
theorem parse_version_invalid_prerelease_cex :
    Semver.parse (releaseLine "1.2.3\nalpha=notaversion") = some ⟨1, 2, 3, none⟩
    ∧ Semver.parse "notaversion" = none
    ∧ parse_version_string "1.2.3\nalpha=notaversion" = [Event.versionOnline "1.2.3"]
    ∧ parse_version_string "1.2.3\nalpha=notaversion" ≠ [] := by
  refine ⟨by decide, by decide, by decide, by decide⟩

/-- C1 (amended): for every version body whose first line parses as a valid
semantic version but whose prerelease scan hits an `alpha=`/`beta=` line with
an invalid semantic-version suffix, `parse_version_string` aborts the rest of
the report: no experimental-version notification is emitted, but the
release-version notification, already queued before the prerelease lines are
scanned, is emitted — the report is exactly the release notification. -/
theorem parse_version_invalid_prerelease_partial (body : String) (release : Semver)
    (h1 : Semver.parse (releaseLine body) = some release)
    (h2 : collectPrereleases (bodyLines body).tail = none) :
    parse_version_string body = [Event.versionOnline (releaseLine body)] := by
  simp only [parse_version_string, h1, h2]

/-- Witness for the amended C1 at the body `"1.2.3\nalpha=notaversion"`. -/
theorem parse_version_invalid_prerelease_partial_w :
    parse_version_string "1.2.3\nalpha=notaversion" =
      [Event.versionOnline (releaseLine "1.2.3\nalpha=notaversion")] :=
  parse_version_invalid_prerelease_partial "1.2.3\nalpha=notaversion" ⟨1, 2, 3, none⟩
    (by decide) (by decide)

/-- C2: for every version body whose first line parses as the release version
and whose prerelease collection succeeds, the experimental-version
notification is emitted iff some collected prerelease is strictly greater
than the release version, and the version it carries is a maximum such
prerelease (no qualifying prerelease is strictly greater than it). -/
theorem parse_version_experimental_selection (body : String) (release : Semver)
    (pres : List String)
    (h1 : Semver.parse (releaseLine body) = some release)
    (h2 : collectPrereleases (bodyLines body).tail = some pres) :
    ((∃ s, Event.experimentalVersionOnline s ∈ parse_version_string body) ↔
      (∃ s ∈ pres, ∃ v, Semver.parse s = some v ∧ release.lt v = true))
    ∧ (∀ s, Event.experimentalVersionOnline s ∈ parse_version_string body →
        s ∈ pres ∧ ∃ v, Semver.parse s = some v ∧ release.lt v = true ∧
          ∀ s' ∈ pres, ∀ v', Semver.parse s' = some v' → release.lt v' = true →
            v.lt v' = false) := by
  have hev : parse_version_string body =
      (match selGo release none pres with
       | none => [Event.versionOnline (releaseLine body)]
       | some vs => [Event.versionOnline (releaseLine body),
           Event.experimentalVersionOnline vs.2]) := by
    simp only [parse_version_string, h1, h2]
  cases hsel : selGo release none pres with
  | none =>
    rw [hsel] at hev
    rw [hev]
    constructor
    · constructor
      · rintro ⟨s, hs⟩
        simp at hs
      · rintro ⟨s, hs, v, hv, hq⟩
        have hfalse := (selGo_none_iff release pres).mp hsel s hs v hv
        rw [hq] at hfalse
        exact absurd hfalse (by decide)
    · intro s hs
      simp at hs
  | some vs =>
    rw [hsel] at hev
    obtain ⟨m1, _, m3⟩ := selGo_max release pres none vs.1 vs.2 (by rw [hsel])
    have prov : vs.2 ∈ pres ∧ Semver.parse vs.2 = some vs.1 ∧ release.lt vs.1 = true := by
      rcases m1 with h1' | h1'
      · exact Option.noConfusion h1'
      · exact h1'
    rw [hev]
    constructor
    · constructor
      · intro _
        exact ⟨vs.2, prov.1, vs.1, prov.2.1, prov.2.2⟩
      · intro _
        exact ⟨vs.2, by simp⟩
    · intro s hs
      simp only [List.mem_cons, List.mem_singleton] at hs
      rcases hs with hs | hs
      · exact absurd hs (by simp)
      · rcases hs with hs | hs
        · have hxs : s = vs.2 := by
            injection hs
          subst hxs
          exact ⟨prov.1, vs.1, prov.2.1, prov.2.2, m3⟩
        · simp at hs

/-- Witness for C2 at the two bodies from the claim: the first yields the
experimental notification `1.4.0-beta`; the second yields no experimental
notification. -/
theorem parse_version_experimental_selection_w :
    (∃ s, Event.experimentalVersionOnline s ∈
        parse_version_string "1.2.3\nalpha=1.3.0-alpha\nbeta=1.4.0-beta")
    ∧ Event.experimentalVersionOnline "1.4.0-beta" ∈
        parse_version_string "1.2.3\nalpha=1.3.0-alpha\nbeta=1.4.0-beta"
    ∧ parse_version_string "1.2.3\nalpha=1.0.0-alpha" = [Event.versionOnline "1.2.3"] := by
  refine ⟨?_, by decide, by decide⟩
  exact (parse_version_experimental_selection "1.2.3\nalpha=1.3.0-alpha\nbeta=1.4.0-beta"
      ⟨1, 2, 3, none⟩ ["1.3.0-alpha", "1.4.0-beta"] (by decide) (by decide)).1.mpr
    ⟨"1.4.0-beta", by decide, ⟨1, 4, 0, some "beta"⟩, by decide, by decide⟩

theorem afterLastSlash_none_iff : ∀ cs, afterLastSlash cs = none ↔ '/' ∉ cs := by
  intro cs
  induction cs with
  | nil => simp [afterLastSlash]
  | cons c cs ih =>
    simp only [afterLastSlash]
    cases h : afterLastSlash cs with
    | some r =>
      have hmem : '/' ∈ cs := by
        by_contra hno
        rw [(ih.mpr hno) ] at h
        exact Option.noConfusion h
      simp [List.mem_cons, hmem]
    | none =>
      by_cases hc : c = '/'
      · subst hc
        simp [List.mem_cons]
      · simp only [if_neg hc]
        have hcs : '/' ∉ cs := ih.mp h
        simp only [true_iff]
        simp [List.mem_cons, hcs]
        exact fun hx => hc hx.symm

theorem afterLastSlash_some : ∀ cs r, afterLastSlash cs = some r →
    ∃ pre, cs = pre ++ '/' :: r ∧ '/' ∉ r := by
  intro cs
  induction cs with
  | nil => intro r h; exact Option.noConfusion h
  | cons c cs ih =>
    intro r h
    simp only [afterLastSlash] at h
    cases hin : afterLastSlash cs with
    | some r0 =>
      rw [hin] at h
      injection h with h
      subst h
      obtain ⟨pre, hpre, hno⟩ := ih r0 hin
      exact ⟨c :: pre, by rw [hpre]; rfl, hno⟩
    | none =>
      rw [hin] at h
      by_cases hc : c = '/'
      · rw [if_pos hc] at h
        injection h with h
        subst h
        subst hc
        exact ⟨[], rfl, (afterLastSlash_none_iff cs).mp hin⟩
      · rw [if_neg hc] at h
        exact Option.noConfusion h

theorem fromLastDot_none_iff : ∀ cs, fromLastDot cs = none ↔ '.' ∉ cs := by
  intro cs
  induction cs with
  | nil => simp [fromLastDot]
  | cons c cs ih =>
    simp only [fromLastDot]
    cases h : fromLastDot cs with
    | some r =>
      have hmem : '.' ∈ cs := by
        by_contra hno
        rw [(ih.mpr hno)] at h
        exact Option.noConfusion h
      simp [List.mem_cons, hmem]
    | none =>
      by_cases hc : c = '.'
      · subst hc
        simp [List.mem_cons]
      · simp only [if_neg hc]
        have hcs : '.' ∉ cs := ih.mp h
        simp only [true_iff]
        simp [List.mem_cons, hcs]
        exact fun hx => hc hx.symm

theorem fromLastDot_some : ∀ cs r, fromLastDot cs = some r →
    ∃ pre t, cs = pre ++ r ∧ r = '.' :: t ∧ '.' ∉ t := by
  intro cs
  induction cs with
  | nil => intro r h; exact Option.noConfusion h
  | cons c cs ih =>
    intro r h
    simp only [fromLastDot] at h
    cases hin : fromLastDot cs with
    | some r0 =>
      rw [hin] at h
      injection h with h
      subst h
      obtain ⟨pre, t, hpre, ht, hno⟩ := ih r0 hin
      exact ⟨c :: pre, t, by rw [hpre]; rfl, ht, hno⟩
    | none =>
      rw [hin] at h
      by_cases hc : c = '.'
      · rw [if_pos hc] at h
        injection h with h
        subst h
        subst hc
        exact ⟨[], cs, rfl, rfl, (fromLastDot_none_iff cs).mp hin⟩
      · rw [if_neg hc] at h
        exact Option.noConfusion h

/-- C10: `get_filename_from_url` returns the whole URL when it contains no
`'/'` and otherwise the substring after the last `'/'`;
`get_file_extension_from_url` returns the whole URL when it contains no `'.'`
and otherwise the substring starting at the last `'.'` (dot included). -/
theorem url_helpers_suffix (url : String) :
    ('/' ∉ url.data → get_filename_from_url url = url)
    ∧ ('/' ∈ url.data →
        ∃ pre, url.data = pre ++ '/' :: (get_filename_from_url url).data
          ∧ '/' ∉ (get_filename_from_url url).data)
    ∧ ('.' ∉ url.data → get_file_extension_from_url url = url)
    ∧ ('.' ∈ url.data →
        ∃ pre t, url.data = pre ++ (get_file_extension_from_url url).data
          ∧ (get_file_extension_from_url url).data = '.' :: t ∧ '.' ∉ t) := by
  refine ⟨?_, ?_, ?_, ?_⟩
  · intro h
    have hn := (afterLastSlash_none_iff url.data).mpr h
    simp [get_filename_from_url, hn]
  · intro h
    cases hA : afterLastSlash url.data with
    | none => exact absurd ((afterLastSlash_none_iff url.data).mp hA) (by simpa using h)
    | some r =>
      have hd : get_filename_from_url url = ⟨r⟩ := by
        simp [get_filename_from_url, hA]
      rw [hd]
      exact afterLastSlash_some url.data r hA
  · intro h
    have hn := (fromLastDot_none_iff url.data).mpr h
    simp [get_file_extension_from_url, hn]
  · intro h
    cases hA : fromLastDot url.data with
    | none => exact absurd ((fromLastDot_none_iff url.data).mp hA) (by simpa using h)
    | some r =>
      have hd : get_file_extension_from_url url = ⟨r⟩ := by
        simp [get_file_extension_from_url, hA]
      rw [hd]
      exact fromLastDot_some url.data r hA

/-- Witness for C10 at `"abc"` (no slash, no dot) and `"http://x/a.zip"`. -/
theorem url_helpers_suffix_w :
    get_filename_from_url "abc" = "abc"
    ∧ (∃ pre, ("http://x/a.zip").data =
        pre ++ '/' :: (get_filename_from_url "http://x/a.zip").data
        ∧ '/' ∉ (get_filename_from_url "http://x/a.zip").data)
    ∧ get_file_extension_from_url "abc" = "abc"
    ∧ (∃ pre t, ("http://x/a.zip").data =
        pre ++ (get_file_extension_from_url "http://x/a.zip").data
        ∧ (get_file_extension_from_url "http://x/a.zip").data = '.' :: t ∧ '.' ∉ t) :=
  ⟨(url_helpers_suffix "abc").1 (by decide),
   (url_helpers_suffix "http://x/a.zip").2.1 (by decide),
   (url_helpers_suffix "abc").2.2.1 (by decide),
   (url_helpers_suffix "http://x/a.zip").2.2.2 (by decide)⟩

theorem progress_step_cases (last : Nat) (p : Nat × Nat) :
    progress_step last p = (last, none)
    ∨ (∃ g, progress_step last p = (g, some g) ∧ last < g) := by
  simp only [progress_step]
  by_cases hc : last < (if 0 < p.2 then 100 * p.1 / p.2 else 0) ∧
      (last ≠ 0 ∨ (if 0 < p.2 then 100 * p.1 / p.2 else 0) ≠ 100)
  · right
    exact ⟨_, by rw [if_pos hc], hc.1⟩
  · left
    rw [if_neg hc]

theorem progress_run_chain : ∀ (samples : List (Nat × Nat)) (last : Nat),
    List.Chain' (· < ·) (last :: (progress_run last samples).2) := by
  intro samples
  induction samples with
  | nil => intro last; simp [progress_run]
  | cons p ps ih =>
    intro last
    rcases progress_step_cases last p with h | ⟨g, h, hlt⟩
    · simp only [progress_run, h]
      exact ih last
    · simp only [progress_run, h]
      rw [List.chain'_cons]
      exact ⟨hlt, ih g⟩

/-- C4: the progress handler computes the integer percentage as
`100 * dlnow / dltotal` when `dltotal > 0` and `0` otherwise, publishes
exactly when `last_published < current` and not
(`last_published = 0 ∧ current = 100`), updating the last published value;
the raw percentage sequence (0, 0, 50, 100) publishes exactly (50, 100), and
every published sequence is strictly increasing. -/
theorem download_progress_policy (samples : List (Nat × Nat)) :
    (∀ (last : Nat) (p : Nat × Nat) (pct : Nat),
      pct = (if 0 < p.2 then 100 * p.1 / p.2 else 0) →
      (((progress_step last p).2 = some pct) ↔
        (last < pct ∧ ¬(last = 0 ∧ pct = 100)))
      ∧ (progress_step last p).1 =
          (if last < pct ∧ ¬(last = 0 ∧ pct = 100) then pct else last))
    ∧ progress_run 0 [(0, 100), (0, 100), (50, 100), (100, 100)] = (100, [50, 100])
    ∧ List.Chain' (· < ·) (progress_run 0 samples).2 := by
  refine ⟨?_, by decide, ?_⟩
  · intro last p pct hpct
    simp only [progress_step]
    rw [← hpct]
    have hc' : (last < pct ∧ (last ≠ 0 ∨ pct ≠ 100)) ↔
        (last < pct ∧ ¬(last = 0 ∧ pct = 100)) := by
      constructor
      · rintro ⟨ha, hb⟩
        refine ⟨ha, ?_⟩
        rintro ⟨h0, h100⟩
        rcases hb with hb | hb
        · exact hb h0
        · exact hb h100
      · rintro ⟨ha, hb⟩
        refine ⟨ha, ?_⟩
        by_cases h0 : last = 0
        · exact Or.inr (fun h100 => hb ⟨h0, h100⟩)
        · exact Or.inl h0
    by_cases hc : last < pct ∧ ¬(last = 0 ∧ pct = 100)
    · rw [if_pos (hc'.mpr hc)]
      exact ⟨iff_of_true rfl hc, by rw [if_pos hc]⟩
    · rw [if_neg (fun hx => hc (hc'.mp hx))]
      exact ⟨iff_of_false (fun hx => Option.noConfusion hx) hc, by rw [if_neg hc]⟩
  · have := progress_run_chain samples 0
    exact List.Chain'.tail this

/-- Witness for C4 at the sample `(50, 100)` from state `0` and at the raw
sequence of the claim. -/
theorem download_progress_policy_w :
    ((progress_step 0 (50, 100)).2 = some 50 ↔ (0 < 50 ∧ ¬(0 = 0 ∧ 50 = 100)))
    ∧ progress_run 0 [(0, 100), (0, 100), (50, 100), (100, 100)] = (100, [50, 100]) :=
  ⟨((download_progress_policy []).1 0 (50, 100) 50 (by decide)).1,
   (download_progress_policy []).2.1⟩

theorem tmp_path_ne (d : String) (pid : Nat) :
    d ++ "." ++ toString pid ++ ".download" ≠ d := by
  intro hx
  have hlen := congrArg String.length hx
  rw [String.length_append, String.length_append, String.length_append] at hlen
  have h1 : ".".length = 1 := by decide
  have h9 : ".download".length = 9 := by decide
  omega

/-- C5: `download_file` resolves the destination as the user path whenever it
is non-empty, else as the default cache folder joined with the URL's trailing
filename segment, and when the resolved destination is empty it fails fast,
returning the empty path without invoking the transport. -/
theorem download_dest_policy (st : DownloadState) (url : String) (env : DlEnv) :
    resolve_dest st url =
      (if st.m_user_dest_path = "" then
        pathJoin st.m_default_dest_folder (get_filename_from_url url)
      else st.m_user_dest_path)
    ∧ (resolve_dest st url = "" →
        download_file st url env = ⟨"", false, none, [], []⟩) := by
  constructor
  · simp only [resolve_dest]
    by_cases h : st.m_user_dest_path = ""
    · rw [if_neg (not_not_intro h), if_pos h]
    · rw [if_pos h, if_neg h]
  · intro h
    simp [download_file, h]

/-- Witness for C5: empty user path, empty default folder and a URL ending in
`'/'` resolve to the empty destination, and the download fails fast. -/
theorem download_dest_policy_w :
    resolve_dest ⟨"", ""⟩ "a/" = ""
    ∧ download_file ⟨"", ""⟩ "a/" ⟨false, ⟨[], TransportOutcome.completed ""⟩, true, 0⟩ =
        ⟨"", false, none, [], []⟩ :=
  ⟨by decide,
   (download_dest_policy ⟨"", ""⟩ "a/"
      ⟨false, ⟨[], TransportOutcome.completed ""⟩, true, 0⟩).2 (by decide)⟩

/-- C6: on any failing transfer (transport error, cancellation observed at a
progress callback, or staging failure) `download_file` returns the empty
path and never creates a file at the destination; in particular cancellation
requested before the first progress callback fails the download with no
file-system operation at all. -/
theorem download_failure_empty_path (st : DownloadState) (url : String) (env : DlEnv)
    (h : (∃ a b, env.tr.outcome = TransportOutcome.error a b)
       ∨ (env.m_cancel = true ∧ env.tr.progressSamples ≠ [])
       ∨ env.stagingOk = false) :
    (download_file st url env).path = ""
    ∧ (∀ op ∈ (download_file st url env).fsOps, FsOp.target op ≠ resolve_dest st url)
    ∧ (env.m_cancel = true → env.tr.progressSamples ≠ [] →
        (download_file st url env).fsOps = []) := by
  by_cases hd : resolve_dest st url = ""
  · simp [download_file, hd]
  · simp only [download_file]
    rw [if_neg hd]
    cases hT : http_transfer env.m_cancel env.tr with
    | none =>
      refine ⟨rfl, ?_, fun _ _ => rfl⟩
      intro op hop
      exact absurd hop (List.not_mem_nil op)
    | some body =>
      have hnc : ¬(env.m_cancel = true ∧ env.tr.progressSamples ≠ []) := by
        intro hx
        simp [http_transfer, hx] at hT
      have hout : env.tr.outcome = TransportOutcome.completed body := by
        simp only [http_transfer, if_neg hnc] at hT
        cases ho : env.tr.outcome with
        | error a b =>
          rw [ho] at hT
          exact Option.noConfusion hT
        | completed b0 =>
          rw [ho] at hT
          injection hT with hT
          rw [hT]
      have hs : env.stagingOk = false := by
        rcases h with ⟨a, b, he⟩ | hcc | hs
        · rw [he] at hout
          exact TransportOutcome.noConfusion hout
        · exact absurd hcc hnc
        · exact hs
      refine ⟨?_, ?_, ?_⟩
      · simp [complete_download, hs]
      · intro op hop
        simp only [complete_download, hs, Bool.false_eq_true, if_neg] at hop
        simp only [if_neg (by decide : ¬False)] at hop
        rcases List.mem_singleton.mp hop with rfl
        exact tmp_path_ne (resolve_dest st url) env.pid
      · intro hc1 hc2
        exact absurd ⟨hc1, hc2⟩ hnc

/-- Witness for C6: cancellation set before a transfer with one pending
progress sample yields the empty path and no file-system operations. -/
theorem download_failure_empty_path_w :
    (download_file ⟨"/tmp/x", "/c"⟩ "u"
        ⟨true, ⟨[(0, 10)], TransportOutcome.completed "B"⟩, true, 7⟩).path = ""
    ∧ (download_file ⟨"/tmp/x", "/c"⟩ "u"
        ⟨true, ⟨[(0, 10)], TransportOutcome.completed "B"⟩, true, 7⟩).fsOps = [] := by
  have h := download_failure_empty_path ⟨"/tmp/x", "/c"⟩ "u"
      ⟨true, ⟨[(0, 10)], TransportOutcome.completed "B"⟩, true, 7⟩
      (Or.inr (Or.inl ⟨rfl, by decide⟩))
  exact ⟨h.1, h.2.2 rfl (by decide)⟩

/-- C7: the download body is staged to a temporary file named
`<destination>.<pid>.download`, then renamed onto the destination; an
exception during write/rename makes the completion callback return `false`
and the whole download fail (returning the empty path), the temporary file
not being cleaned up. -/
theorem download_staging_tmpfile (dest_path : String) (pid : Nat) (body : String)
    (st : DownloadState) (url : String) (env : DlEnv) :
    complete_download dest_path pid body true =
      (true, [FsOp.write (dest_path ++ "." ++ toString pid ++ ".download") body,
              FsOp.rename (dest_path ++ "." ++ toString pid ++ ".download") dest_path])
    ∧ complete_download dest_path pid body false =
      (false, [FsOp.write (dest_path ++ "." ++ toString pid ++ ".download") body])
    ∧ (env.stagingOk = false → (download_file st url env).path = "") := by
  refine ⟨rfl, rfl, ?_⟩
  intro hs
  by_cases hd : resolve_dest st url = ""
  · simp [download_file, hd]
  · simp only [download_file]
    rw [if_neg hd]
    cases hT : http_transfer env.m_cancel env.tr with
    | none => rfl
    | some body0 => simp [complete_download, hs]

/-- Witness for C7 at destination `"/d/f"`, pid 7, a failing staging
environment. -/
theorem download_staging_tmpfile_w :
    complete_download "/d/f" 7 "BODY" true =
      (true, [FsOp.write "/d/f.7.download" "BODY", FsOp.rename "/d/f.7.download" "/d/f"])
    ∧ (download_file ⟨"/d/f", "/c"⟩ "u"
        ⟨false, ⟨[], TransportOutcome.completed "B"⟩, false, 7⟩).path = "" := by
  have h := download_staging_tmpfile "/d/f" 7 "BODY" ⟨"/d/f", "/c"⟩ "u"
      ⟨false, ⟨[], TransportOutcome.completed "B"⟩, false, 7⟩
  exact ⟨h.1.trans (by decide), h.2.2 rfl⟩

/-- C8: every transport GET issued by `download_file` carries the fixed size
limit 70 MiB, and every transport GET issued by `version_check` carries the
fixed size limit 256 bytes. -/
theorem transport_size_limits (st : DownloadState) (url : String) (env : DlEnv)
    (cf : Bool) (tr : TransportRun) :
    ((download_file st url env).transportInvoked = true →
      (download_file st url env).sizeLimit = some (70 * 1024 * 1024))
    ∧ (resolve_dest st url ≠ "" → (download_file st url env).transportInvoked = true)
    ∧ (version_check cf tr).sizeLimit = 256 := by
  refine ⟨?_, ?_, rfl⟩
  · intro hx
    by_cases hd : resolve_dest st url = ""
    · simp [download_file, hd] at hx
    · simp only [download_file]
      rw [if_neg hd]
      cases hT : http_transfer env.m_cancel env.tr with
      | none => rfl
      | some body => rfl
  · intro hne
    simp only [download_file]
    rw [if_neg hne]
    cases hT : http_transfer env.m_cancel env.tr with
    | none => rfl
    | some body => rfl

/-- Witness for C8 at a non-empty destination (transport invoked). -/
theorem transport_size_limits_w :
    (download_file ⟨"/d", "/c"⟩ "u"
        ⟨false, ⟨[], TransportOutcome.completed "B"⟩, true, 1⟩).sizeLimit =
      some (70 * 1024 * 1024)
    ∧ (version_check false ⟨[], TransportOutcome.completed "1.2.3"⟩).sizeLimit = 256 := by
  have h := transport_size_limits ⟨"/d", "/c"⟩ "u"
      ⟨false, ⟨[], TransportOutcome.completed "B"⟩, true, 1⟩
      false ⟨[], TransportOutcome.completed "1.2.3"⟩
  exact ⟨h.1 (h.2.1 (by decide)), h.2.2⟩

theorem sync_active_le : ∀ (calls : List SyncCall) (m : Nat) (st : Option Nat) (a : Nat),
    a = (match st with | some _ => 1 | none => 0) →
    ∀ x ∈ activeSeq a (sync_run st m calls), x ≤ 1 := by
  intro calls
  induction calls with
  | nil =>
    intro m st a ha x hx
    cases st <;> simp [sync_run, activeSeq] at hx
  | cons c rest ih =>
    intro m st a ha x hx
    cases st with
    | none =>
      subst ha
      simp only [sync_run, activeSeq, stepActive] at hx
      rcases List.mem_cons.mp hx with rfl | hx
      · omega
      rcases List.mem_cons.mp hx with rfl | hx
      · omega
      exact ih (m + 1) (some m) 1 rfl x hx
    | some p =>
      subst ha
      simp only [sync_run, activeSeq, stepActive] at hx
      rcases List.mem_cons.mp hx with rfl | hx
      · omega
      rcases List.mem_cons.mp hx with rfl | hx
      · omega
      rcases List.mem_cons.mp hx with rfl | hx
      · omega
      rcases List.mem_cons.mp hx with rfl | hx
      · omega
      exact ih (m + 1) (some m) 1 rfl x hx

/-- C9: each `sync_download`/`sync_version` call first sets the cancel flag
and joins the previously spawned task (if any), then clears the flag, and
only then spawns the new task; consequently the number of active background
tasks never exceeds one at any point of any call sequence. -/
theorem sync_serialized (calls : List SyncCall) (nid : Nat) :
    (∀ (p m : Nat) (c : SyncCall) (rest : List SyncCall),
      sync_run (some p) m (c :: rest) =
        CoordEvent.setCancel :: CoordEvent.joinTask p :: CoordEvent.clearCancel ::
          CoordEvent.spawnTask m :: sync_run (some m) (m + 1) rest)
    ∧ (∀ (m : Nat) (c : SyncCall) (rest : List SyncCall),
      sync_run none m (c :: rest) =
        CoordEvent.clearCancel :: CoordEvent.spawnTask m ::
          sync_run (some m) (m + 1) rest)
    ∧ (∀ x ∈ activeSeq 0 (sync_run none nid calls), x ≤ 1) :=
  ⟨fun _ _ _ _ => rfl, fun _ _ _ => rfl, sync_active_le calls nid none 0 rfl⟩

/-- Witness for C9 at the call sequence [download, version]. -/
theorem sync_serialized_w :
    1 ∈ activeSeq 0 (sync_run none 0 [SyncCall.download, SyncCall.version])
    ∧ 1 ≤ 1 :=
  ⟨by decide,
   (sync_serialized [SyncCall.download, SyncCall.version] 0).2.2 1 (by decide)⟩

end AppUpdaterProof
